import Mathlib

/-!
Shallow embedding of the reconciliation and snapshot engine of a
prediction-market portfolio tracker (files `app/services/tracker.py`,
`app/services/polymarket.py`, `app/tasks/scheduler.py` and the ORM models in
`app/models/`).  Python `Decimal` values are modelled as `ℚ` (the arithmetic
performed by the engine — addition, subtraction, multiplication and the two
divisions — is exact on the inputs considered), timezone-aware datetimes as
`Int` (an epoch instant, only ordering and equality matter), nullable columns
as `Option`, and Python dicts as association lists with replace-on-insert.
-/

namespace Dashboard

/-- Market row (`app/models/market.py`): the two outcome-token ids, the end
date, the resolution instant and the resolution outcome string. -/
structure Market where
  clob_token_id_yes : Option String
  clob_token_id_no : Option String
  end_date : Option Int
  resolved_at : Option Int
  resolution_outcome : Option String
deriving DecidableEq, Repr, Inhabited

/-- Position row (`app/models/position.py`), restricted to the columns the
reconciler reads or writes. -/
structure Position where
  id : Nat
  direction : String
  shares : ℚ
  entry_price : ℚ
  cost_basis : ℚ
  current_price : Option ℚ
  current_value : Option ℚ
  unrealized_pnl : Option ℚ
  realized_pnl : Option ℚ
  exit_price : Option ℚ
  exit_date : Option Int
  exit_reasoning : Option String
  status : String
deriving DecidableEq, Repr, Inhabited

/-- PositionSnapshot row (`app/models/position.py`), the columns the
reconciler writes (`bid`/`ask`/`spread` are left null by it). -/
structure PositionSnapshot where
  position_id : Nat
  timestamp : Int
  price : ℚ
  value : ℚ
deriving DecidableEq, Repr

/-- PortfolioSnapshot row (`app/models/portfolio.py`), the columns written by
`TrackerService.take_portfolio_snapshot`. -/
structure PortfolioSnapshot where
  timestamp : Int
  cash_balance : ℚ
  position_value : ℚ
  total_value : ℚ
  daily_pnl : Option ℚ
  daily_pnl_pct : Option ℚ
  granularity : String
deriving DecidableEq, Repr

/-- One processed feed record, as `PolymarketClient.get_wallet_balance`
produces it and as `_sync_positions` consumes it with `.get(...)` accesses:
every field may be absent. -/
structure FeedRecord where
  token_id : Option String
  size : Option ℚ
  current_price : Option ℚ
  value : Option ℚ
deriving DecidableEq, Repr

/-- Python `str.lower()`: lowercase every character. -/
def strLower (s : String) : String :=
  String.mk (s.data.map Char.toLower)

/-- Python `x.lower() if x else None` on a string: the empty string is falsy
and yields `None`. -/
def pyLower? (s : String) : Option String :=
  if s = "" then none else some (strLower s)

/-- Token selection of `_sync_positions` line 93:
`market.clob_token_id_yes if position.direction == "yes" else
market.clob_token_id_no`. -/
def selectTokenSync (direction : String) (market : Market) : Option String :=
  if direction = "yes" then market.clob_token_id_yes else market.clob_token_id_no

/-- Token selection of `update_position_prices` line 251, textually identical
to the one in `_sync_positions`. -/
def selectTokenPriceUpdate (direction : String) (market : Market) : Option String :=
  if direction = "yes" then market.clob_token_id_yes else market.clob_token_id_no

/-- Share-count sync of `_sync_positions` lines 118-131: if the API reports a
size, and it differs from the ledger shares and is positive, rescale
`cost_basis` proportionally (when the old share count is positive) and adopt
the API size. -/
def syncShares (position : Position) (api_size : Option ℚ) : Position :=
  match api_size with
  | none => position
  | some api_shares =>
    if api_shares ≠ position.shares ∧ 0 < api_shares then
      let cb :=
        if 0 < position.shares then
          position.cost_basis * (api_shares / position.shares)
        else position.cost_basis
      { position with cost_basis := cb, shares := api_shares }
    else position

/-- Matched-position update of `_sync_positions` lines 113-145: sync shares,
refresh price/value/unrealized P&L from the feed record, and build the
appended `PositionSnapshot`. -/
def syncMatched (now : Int) (position : Position) (rec : FeedRecord) :
    Position × PositionSnapshot :=
  let current_price := rec.current_price.getD 0
  let value := rec.value.getD 0
  let p1 := syncShares position rec.size
  let p2 := { p1 with
    current_price := some current_price,
    current_value := some value,
    unrealized_pnl := some (value - p1.cost_basis) }
  (p2, { position_id := p2.id, timestamp := now, price := current_price, value := value })

/-- Resolution classification of `_sync_positions` lines 153-165: resolved
with the market's recorded outcome when `resolved_at` is set; resolved with
outcome `None` when only `end_date` has passed; otherwise not resolved. -/
def resolveInfo (market : Market) (now : Int) : Bool × Option String :=
  match market.resolved_at with
  | some _ => (true, market.resolution_outcome)
  | none =>
    match market.end_date with
    | some d => if d ≤ now then (true, none) else (false, none)
    | none => (false, none)

/-- Resolved-market closure of `_sync_positions` lines 167-210: the payout
compares `direction` and the outcome for exact equality with the lowercase
literals, while `exit_price` compares them case-insensitively. -/
def closeResolved (position : Position) (market : Market)
    (resolution_outcome : Option String) (now : Int) : Position :=
  let payout :=
    match resolution_outcome with
    | some oc =>
      if (position.direction = "yes" ∧ oc = "yes") ∨
         (position.direction = "no" ∧ oc = "no") then
        position.shares * 1
      else 0
    | none => position.shares * (position.current_price.getD 0)
  let realized_pnl := payout - position.cost_basis
  let exit_price :=
    match resolution_outcome with
    | some oc =>
      if pyLower? oc = pyLower? position.direction then (1 : ℚ) else 0
    | none => position.current_price.getD 0
  { position with
    status := "closed",
    exit_date := some (market.resolved_at.getD now),
    exit_price := some exit_price,
    realized_pnl := some realized_pnl,
    current_value := some 0,
    unrealized_pnl := some 0 }

/-- Manual-exit closure of `_sync_positions` lines 211-233. -/
def closeManual (position : Position) (now : Int) : Position :=
  let exit_price := position.current_price.getD 0
  let realized_pnl := position.shares * exit_price - position.cost_basis
  { position with
    status := "closed",
    exit_date := some now,
    exit_price := some exit_price,
    realized_pnl := some realized_pnl,
    current_value := some 0,
    unrealized_pnl := some 0,
    exit_reasoning := some "Auto-detected: position disappeared from API (manual exit)" }

/-- Ledger-only branch of `_sync_positions` lines 153-233: classify the
market, then close as resolved or as manual exit. -/
def closeLedgerOnly (position : Position) (market : Market) (now : Int) : Position :=
  let ri := resolveInfo market now
  if ri.1 then closeResolved position market ri.2 now else closeManual position now

/-- Lookup in an association list (a Python dict keyed by `k`). -/
def lookupKey {α β : Type} [DecidableEq α] (k : α) : List (α × β) → Option β
  | [] => none
  | kv :: rest => if kv.1 = k then some kv.2 else lookupKey k rest

/-- Python dict assignment `d[k] = v` when `k` is already present: the value
at the first (unique) occurrence of `k` is replaced, insertion order kept. -/
def dictReplace {α β : Type} [DecidableEq α] (d : List (α × β)) (k : α) (v : β) :
    List (α × β) :=
  d.map (fun kv => if kv.1 = k then (k, v) else kv)

/-- Step of building `db_positions` (`_sync_positions` lines 88-94): rows
whose market is null are skipped (collected as untouched); otherwise the row
is inserted under its direction-selected token id, a row shadowed by a later
insert under the same key being likewise untouched. -/
def buildDbStep (acc : List (Option String × Position × Market) × List Position)
    (pm : Position × Option Market) :
    List (Option String × Position × Market) × List Position :=
  match pm.2 with
  | none => (acc.1, acc.2 ++ [pm.1])
  | some market =>
    let k := selectTokenSync pm.1.direction market
    match lookupKey k acc.1 with
    | some old => (dictReplace acc.1 k (pm.1, market), acc.2 ++ [old.1])
    | none => (acc.1 ++ [(k, pm.1, market)], acc.2)

/-- The `db_positions` dict of `_sync_positions` lines 88-94, together with
the input positions the pass can never touch (null market, or shadowed by a
dict-key collision). -/
def buildDbPositions (rows : List (Position × Option Market)) :
    List (Option String × Position × Market) × List Position :=
  rows.foldl buildDbStep ([], [])

/-- Membership test `token_id in found_token_ids` for a dict key that may be
`None` (a `None` key is never a member of the set of matched strings). -/
def foundContains (found : List String) : Option String → Bool
  | some t => t ∈ found
  | none => false

/-- Mutable state threaded through the matched-update loop of
`_sync_positions` lines 106-145. -/
structure SyncState where
  db : List (Option String × Position × Market)
  found : List String
  snaps : List PositionSnapshot
deriving DecidableEq, Repr

/-- One iteration of the matched-update loop (`_sync_positions` lines
107-145): skip records whose token id is absent, empty, or not a ledger key;
otherwise record the token as found, update the position and append a
snapshot. -/
def matchedStep (now : Int) (st : SyncState) (rec : FeedRecord) : SyncState :=
  match rec.token_id with
  | none => st
  | some t =>
    if t = "" then st
    else
      match lookupKey (some t) st.db with
      | none => st
      | some pm =>
        let ps := syncMatched now pm.1 rec
        { db := dictReplace st.db (some t) (ps.1, pm.2),
          found := if t ∈ st.found then st.found else st.found ++ [t],
          snaps := st.snaps ++ [ps.2] }

/-- Ledger-only loop of `_sync_positions` lines 147-233: every entry whose
key was not matched is closed (by resolution or as a manual exit). -/
def closePass (now : Int) (found : List String)
    (db : List (Option String × Position × Market)) :
    List (Option String × Position × Market) :=
  db.map (fun e =>
    if foundContains found e.1 then e
    else (e.1, closeLedgerOnly e.2.1 e.2.2 now, e.2.2))

/-- Result of one `_sync_positions` pass: the final `db_positions` entries,
the positions the pass never touched, and the appended snapshots. -/
structure SyncResult where
  db : List (Option String × Position × Market)
  untouched : List Position
  snaps : List PositionSnapshot
deriving DecidableEq, Repr

/-- The whole `_sync_positions` pass (lines 78-233) as a function of the open
ledger rows (joined to their markets), the feed's position list, and the
current instant. -/
def syncPositions (rows : List (Position × Option Market)) (api : List FeedRecord)
    (now : Int) : SyncResult :=
  let bd := buildDbPositions rows
  let st := api.foldl (matchedStep now) ⟨bd.1, [], []⟩
  { db := closePass now st.found st.db, untouched := bd.2, snaps := st.snaps }

/-- The open rows a subsequent pass would load after this one (the query of
`_sync_positions` lines 81-85 restricted to `status = "open"`), with each
position still joined to its unchanged market. -/
def passOutputRows (r : SyncResult) : List (Position × Option Market) :=
  (r.untouched.filter (fun p => p.status = "open")).map (fun p => (p, none)) ++
  (r.db.filter (fun e => e.2.1.status = "open")).map (fun e => (e.2.1, some e.2.2))

/-- Per-position body of `update_position_prices` lines 248-260: select the
token by direction, skip falsy token ids, and refresh price, value and
unrealized P&L when a price comes back. -/
def updatePriceStep (fetchPrice : String → Option ℚ) (p : Position) (m : Market) :
    Position :=
  match selectTokenPriceUpdate p.direction m with
  | none => p
  | some t =>
    if t = "" then p
    else
      match fetchPrice t with
      | none => p
      | some price =>
        { p with
          current_price := some price,
          current_value := some (p.shares * price),
          unrealized_pnl := some (p.shares * price - p.cost_basis) }

/-- Result of `PolymarketClient.get_wallet_balance` (`polymarket.py` lines
49-90): the hard-coded zero cash balance, the summed position value, and the
processed feed records. -/
structure WalletData where
  usdc_balance : ℚ
  total_position_value : ℚ
  positions : List FeedRecord
deriving DecidableEq, Repr

/-- Database state touched by one pass: the position rows (joined to their
markets) and the two append-only snapshot tables. -/
structure DbState where
  rows : List (Position × Option Market)
  portfolio_snapshots : List PortfolioSnapshot
  position_snapshots : List PositionSnapshot
deriving DecidableEq, Repr

/-- The `ORDER BY timestamp DESC LIMIT 1` query of `take_portfolio_snapshot`
lines 35-40, under the modelling that snapshots are stored in chronological
insertion order. -/
def latestPortfolioSnapshot (l : List PortfolioSnapshot) : Option PortfolioSnapshot :=
  l.getLast?

/-- Pure effect of one full snapshot pass (`take_portfolio_snapshot` lines
26-62): totals, daily P&L against the previous snapshot (`None` unless the
previous total is truthy; the percentage additionally needs it positive), the
new portfolio snapshot, and the `_sync_positions` effect on rows and
position snapshots. -/
def runSnapshotPass (db : DbState) (w : WalletData) (now : Int) :
    DbState × PortfolioSnapshot :=
  let cash_balance := w.usdc_balance
  let position_value := w.total_position_value
  let total_value := cash_balance + position_value
  let prev := latestPortfolioSnapshot db.portfolio_snapshots
  let pnl : Option ℚ × Option ℚ :=
    match prev with
    | none => (none, none)
    | some p =>
      if p.total_value ≠ 0 then
        let d := total_value - p.total_value
        (some d, if 0 < p.total_value then some (d / p.total_value * 100) else none)
      else (none, none)
  let snapshot : PortfolioSnapshot :=
    { timestamp := now, cash_balance := cash_balance,
      position_value := position_value, total_value := total_value,
      daily_pnl := pnl.1, daily_pnl_pct := pnl.2, granularity := "minute" }
  let openRows := db.rows.filter (fun pm => pm.1.status = "open")
  let r := syncPositions openRows w.positions now
  let keptRows := db.rows.filter (fun pm => ¬ pm.1.status = "open")
  let rows' := keptRows ++ r.untouched.map (fun p => (p, (none : Option Market))) ++
    r.db.map (fun e => (e.2.1, some e.2.2))
  ({ rows := rows',
     portfolio_snapshots := db.portfolio_snapshots ++ [snapshot],
     position_snapshots := db.position_snapshots ++ r.snaps }, snapshot)

/-- Transactional session (the SQLAlchemy `AsyncSession`): a committed
database state and the working state holding uncommitted mutations.
`commit` publishes the working state; `rollback` discards it. -/
structure Session where
  committed : DbState
  working : DbState
deriving DecidableEq, Repr

/-- Session commit: the working state becomes the committed state. -/
def Session.commitAll (s : Session) : Session :=
  { committed := s.working, working := s.working }

/-- Session rollback: uncommitted mutations are discarded. -/
def Session.rollbackAll (s : Session) : Session :=
  { committed := s.committed, working := s.committed }

/-- Embedding of `TrackerService.take_portfolio_snapshot` (lines 20-76): on a fetch
failure the `except` branch rolls back and re-raises; otherwise the whole
pass is staged on the session and committed in one transaction, a
persistence failure likewise rolling everything back and re-raising. -/
def take_portfolio_snapshot (s : Session) (fetched : Except String WalletData)
    (persistOk : Bool) (now : Int) : Except String PortfolioSnapshot × Session :=
  match fetched with
  | Except.error e => (Except.error e, s.rollbackAll)
  | Except.ok w =>
    let r := runSnapshotPass s.working w now
    let staged : Session := { s with working := r.1 }
    if persistOk then (Except.ok r.2, staged.commitAll)
    else (Except.error "persistence failure", staged.rollbackAll)

/-- The scheduled task `poll_portfolio` (`scheduler.py` lines 16-42): any
exception raised by the pass is caught and logged, so the task always
returns and the scheduler keeps ticking. -/
def poll_portfolio (s : Session) (fetched : Except String WalletData)
    (persistOk : Bool) (now : Int) : Session :=
  (take_portfolio_snapshot s fetched persistOk now).2

/-- A run of scheduler ticks: each tick invokes `poll_portfolio` on the
session state left by the previous tick, whether or not that tick failed. -/
def runTicks (s : Session) : List (Except String WalletData × Bool × Int) → Session
  | [] => s
  | t :: ts => runTicks (poll_portfolio s t.1 t.2.1 t.2.2) ts

/-- The token under which a feed record can match a ledger entry: its
`token_id` when present and truthy (non-empty), else nothing. -/
def feedTokenKey (rec : FeedRecord) : Option String :=
  match rec.token_id with
  | some t => if t = "" then none else some t
  | none => none

/-- First feed record able to match the dict key `k`. -/
def findRec (api : List FeedRecord) (k : Option String) : Option FeedRecord :=
  match k with
  | none => none
  | some t => api.find? (fun rec => feedTokenKey rec = some t)

/-- Net effect of the matched-update loop on one dict entry: update it with
the first feed record matching its key, if any. -/
def applyFeed (api : List FeedRecord) (now : Int)
    (e : Option String × Position × Market) : Option String × Position × Market :=
  match findRec api e.1 with
  | some rec => (e.1, (syncMatched now e.2.1 rec).1, e.2.2)
  | none => e

/-- Whether a feed record matches some key of the dict (and hence appends a
snapshot when processed). -/
def recMatches (ks : List (Option String)) (rec : FeedRecord) : Bool :=
  match feedTokenKey rec with
  | some t => some t ∈ ks
  | none => false

/-- Dict key contributed by one ledger row (nothing when its market is
null). -/
def keyFn (pm : Position × Option Market) : Option (Option String) :=
  pm.2.map (fun m => selectTokenSync pm.1.direction m)

/-- Dict entries contributed by a row list when no key collides. -/
def dbOf (rows : List (Position × Option Market)) :
    List (Option String × Position × Market) :=
  rows.filterMap (fun pm =>
    pm.2.map (fun m => (selectTokenSync pm.1.direction m, pm.1, m)))

/-- Rows skipped by the dict build because their market is null. -/
def untOf (rows : List (Position × Option Market)) : List Position :=
  rows.filterMap (fun pm => match pm.2 with | none => some pm.1 | some _ => none)

/-- Worked-example ledger position: 10 shares, direction `yes`, cost basis 4,
no recorded current price. -/
def posYes10 : Position :=
  { id := 1, direction := "yes", shares := 10, entry_price := 2/5, cost_basis := 4,
    current_price := none, current_value := none, unrealized_pnl := none,
    realized_pnl := none, exit_price := none, exit_date := none,
    exit_reasoning := none, status := "open" }

/-- Worked-example ledger position: as `posYes10` but with a last known
current price of 0.5. -/
def posYes10p : Position :=
  { posYes10 with id := 2, current_price := some (1/2) }

/-- Worked-example ledger position: 100 shares at entry price 0.50, cost
basis 50. -/
def pos100 : Position :=
  { id := 3, direction := "yes", shares := 100, entry_price := 1/2, cost_basis := 50,
    current_price := some (1/2), current_value := some 50, unrealized_pnl := some 0,
    realized_pnl := none, exit_price := none, exit_date := none,
    exit_reasoning := none, status := "open" }

/-- Market resolved with recorded outcome string `"YES"`. -/
def mktResolvedYES : Market :=
  { clob_token_id_yes := some "ty", clob_token_id_no := some "tn",
    end_date := some 50, resolved_at := some 90, resolution_outcome := some "YES" }

/-- Market resolved with recorded (lowercase) outcome string `"yes"`. -/
def mktResolvedYesLower : Market :=
  { mktResolvedYES with resolution_outcome := some "yes" }

/-- Market whose `end_date` (5) has passed but whose `resolved_at` is null,
while the row itself carries the known outcome `"no"`. -/
def mktEndedNo : Market :=
  { clob_token_id_yes := some "ty", clob_token_id_no := some "tn",
    end_date := some 5, resolved_at := none, resolution_outcome := some "no" }

/-- Market whose `end_date` (5) has passed, `resolved_at` null, outcome
unknown. -/
def mktEnded5 : Market :=
  { mktEndedNo with resolution_outcome := none }

/-- Market with yes-token `"t"`, not resolved and not past its end date. -/
def mktT : Market :=
  { clob_token_id_yes := some "t", clob_token_id_no := some "u",
    end_date := none, resolved_at := none, resolution_outcome := none }

/-- Feed record for token `"t"` whose size differs from 100 ledger shares by
only 0.001 units. -/
def feedTinyDiff : FeedRecord :=
  { token_id := some "t", size := some (100001/1000),
    current_price := some (1/2), value := some (100001/2000) }

/-- Feed record for token `"t"` reporting size 40 at price 0.5. -/
def feed40 : FeedRecord :=
  { token_id := some "t", size := some 40, current_price := some (1/2), value := some 20 }

/-- Feed record for token `"t"` reporting size 0. -/
def feedZero : FeedRecord :=
  { token_id := some "t", size := some 0, current_price := some 0, value := some 0 }

/-- Empty database state. -/
def db0 : DbState :=
  { rows := [], portfolio_snapshots := [], position_snapshots := [] }

/-- Wallet fetch result with no positions. -/
def w0 : WalletData :=
  { usdc_balance := 0, total_position_value := 0, positions := [] }

/-- C1: with `direction = "yes"`, `resolution_outcome = "YES"`, `shares = 10`,
`cost_basis = 4`, the claimed case-insensitive payout would give
`realized_pnl = 6`; the code's payout comparison is case-sensitive, so it
pays 0 and yields `realized_pnl = -4`, while the exit-price comparison in the
same branch is case-insensitive and yields `exit_price = 1` — the two
disagree, and the lowercase outcome `"yes"` does give 6. -/
theorem c1_resolved_payout_case_bug :
    (closeLedgerOnly posYes10 mktResolvedYES 100).realized_pnl = some (-4) ∧
    (closeLedgerOnly posYes10 mktResolvedYES 100).exit_price = some 1 ∧
    (closeLedgerOnly posYes10 mktResolvedYES 100).status = "closed" ∧
    (closeLedgerOnly posYes10 mktResolvedYesLower 100).realized_pnl = some 6 ∧
    (closeLedgerOnly posYes10 mktResolvedYesLower 100).exit_price = some 1 := by
  have h1 : pyLower? "YES" = some "yes" := by decide
  have h2 : pyLower? "yes" = some "yes" := by decide
  refine ⟨?_, ?_, ?_, ?_, ?_⟩ <;>
    norm_num [closeLedgerOnly, resolveInfo, closeResolved, posYes10,
      mktResolvedYES, mktResolvedYesLower, h1, h2]
  all_goals decide

/-- C2 counterexample: a feed size of 100.001 against 100 ledger shares
differs by only 0.001 ≤ 0.005 units, yet the pass (which has no tolerance)
rewrites both `shares` and `cost_basis`. -/
theorem c2_no_tolerance_counterexample :
    (syncMatched 0 pos100 feedTinyDiff).1.shares = 100001/1000 ∧
    (syncMatched 0 pos100 feedTinyDiff).1.shares ≠ pos100.shares ∧
    (syncMatched 0 pos100 feedTinyDiff).1.cost_basis ≠ pos100.cost_basis := by
  refine ⟨?_, ?_, ?_⟩ <;>
    norm_num [syncMatched, syncShares, pos100, feedTinyDiff]

/-- C2 amended: a matched position's `shares`/`cost_basis` are modified iff
the feed size differs from the ledger shares at all (no tolerance) and is
positive; then `cost_basis` is rescaled by `new/old` (when the old share
count is positive), `shares` becomes the feed size and `entry_price` is
unchanged. -/
theorem c2_partial_fill_amended (p : Position) (rec : FeedRecord) (s : ℚ)
    (now : Int) (hs : rec.size = some s) :
    ((s ≠ p.shares ∧ 0 < s) →
      ((syncMatched now p rec).1.shares = s ∧
       (syncMatched now p rec).1.cost_basis =
         (if 0 < p.shares then p.cost_basis * (s / p.shares) else p.cost_basis) ∧
       (syncMatched now p rec).1.entry_price = p.entry_price)) ∧
    (¬ (s ≠ p.shares ∧ 0 < s) →
      ((syncMatched now p rec).1.shares = p.shares ∧
       (syncMatched now p rec).1.cost_basis = p.cost_basis ∧
       (syncMatched now p rec).1.entry_price = p.entry_price)) := by
  unfold syncMatched syncShares
  rw [hs]
  by_cases h : s ≠ p.shares ∧ 0 < s <;> simp [h]

/-- C2 witness: the spec's worked example through the amended theorem —
ledger 100 shares with cost basis 50, feed size 40, gives shares 40, cost
basis 20, entry price unchanged at 0.50. -/
theorem c2_partial_fill_amended_witness :
    (syncMatched 0 pos100 feed40).1.shares = 40 ∧
    (syncMatched 0 pos100 feed40).1.cost_basis = 20 ∧
    (syncMatched 0 pos100 feed40).1.entry_price = 1/2 := by
  obtain ⟨h1, h2, h3⟩ :=
    (c2_partial_fill_amended pos100 feed40 40 0 rfl).1 (by norm_num [pos100])
  refine ⟨h1, ?_, ?_⟩
  · rw [h2]; norm_num [pos100]
  · rw [h3]; norm_num [pos100]

/-- C3 counterexample: market with `resolved_at` null, `end_date = 5` in the
past (now = 10) and a known outcome `"no"` on the row; the position has
`direction = "yes"`, shares 10, cost basis 4, last price 0.5.  The claim
demands payout `shares × 0 = 0` (direction ≠ outcome), i.e.
`realized_pnl = -4` and `exit_price = 0`; the code ignores the row's outcome
in this branch and uses the last-price fallback: payout 5,
`realized_pnl = 1`, `exit_price = 0.5`. -/
theorem c3_enddate_ignores_outcome_counterexample :
    (closeLedgerOnly posYes10p mktEndedNo 10).realized_pnl = some 1 ∧
    (closeLedgerOnly posYes10p mktEndedNo 10).exit_price = some (1/2) ∧
    mktEndedNo.resolution_outcome = some "no" ∧ posYes10p.direction = "yes" := by
  refine ⟨?_, ?_, ?_, ?_⟩ <;>
    norm_num [closeLedgerOnly, resolveInfo, closeResolved, posYes10p, posYes10,
      mktEndedNo]

/-- C3 amended: whenever `resolved_at` is null and `end_date` has passed, the
pass treats the outcome as unknown regardless of the Market row's recorded
`resolution_outcome`, and always pays `shares × last_known_current_price`
(0 when no price is known): the known-outcome payout applies only when
`resolved_at` is set. -/
theorem c3_enddate_always_fallback (p : Position) (m : Market) (now d : Int)
    (hra : m.resolved_at = none) (hed : m.end_date = some d) (hd : d ≤ now) :
    (closeLedgerOnly p m now).realized_pnl =
      some (p.shares * p.current_price.getD 0 - p.cost_basis) ∧
    (closeLedgerOnly p m now).exit_price = some (p.current_price.getD 0) ∧
    (closeLedgerOnly p m now).status = "closed" := by
  unfold closeLedgerOnly resolveInfo
  rw [hra, hed]
  simp [hd, closeResolved]

/-- C3 witness: the amended theorem at the counterexample's concrete input. -/
theorem c3_enddate_always_fallback_witness :
    (closeLedgerOnly posYes10p mktEndedNo 10).realized_pnl = some 1 ∧
    (closeLedgerOnly posYes10p mktEndedNo 10).exit_price = some (1/2) := by
  obtain ⟨h1, h2, h3⟩ :=
    c3_enddate_always_fallback posYes10p mktEndedNo 10 5 rfl rfl (by norm_num)
  rw [h1, h2]
  norm_num [posYes10p, posYes10]

/-- C8 counterexample: market with `resolved_at` null and past
`end_date = 5`, closed at reconciliation time 10: the claim says
`exit_date = end_date = 5`; the code never consults `end_date` and sets
`exit_date = now = 10`. -/
theorem c8_exit_date_counterexample :
    (closeLedgerOnly posYes10p mktEnded5 10).exit_date = some 10 ∧
    mktEnded5.resolved_at = none ∧ mktEnded5.end_date = some 5 ∧
    (5 : Int) ≠ 10 := by
  refine ⟨?_, ?_, ?_, ?_⟩ <;>
    norm_num [closeLedgerOnly, resolveInfo, closeResolved, posYes10p, posYes10,
      mktEnded5, mktEndedNo]

/-- C8 amended: for a position closed as a resolved market, `exit_date` is
the market's `resolved_at` when present and otherwise the time of
reconciliation; `end_date` is never used. -/
theorem c8_exit_date_amended (p : Position) (m : Market) (now : Int)
    (h : (resolveInfo m now).1 = true) :
    ((∀ r, m.resolved_at = some r → (closeLedgerOnly p m now).exit_date = some r) ∧
     (m.resolved_at = none → (closeLedgerOnly p m now).exit_date = some now)) := by
  constructor
  · intro r hr
    simp [closeLedgerOnly, h, closeResolved, hr]
  · intro hr
    simp [closeLedgerOnly, h, closeResolved, hr]

/-- C8 witness: the amended theorem at two concrete inputs, one with
`resolved_at` set (exit date 90) and one with only a past end date (exit
date = now = 10). -/
theorem c8_exit_date_amended_witness :
    (closeLedgerOnly posYes10 mktResolvedYES 100).exit_date = some 90 ∧
    (closeLedgerOnly posYes10p mktEnded5 10).exit_date = some 10 := by
  refine ⟨(c8_exit_date_amended posYes10 mktResolvedYES 100 (by decide)).1 90 rfl, ?_⟩
  exact (c8_exit_date_amended posYes10p mktEnded5 10 (by decide)).2 rfl

/-- C4 counterexample: an open ledger position (token `"t"`, no market
resolution data) whose only feed counterpart reports size 0.  The claim says
size ≈ 0 records are ignored, making the position ledger-only and hence a
closure; the code ignores nothing, matches the record, updates the position
in place and leaves it open, appending a snapshot. -/
theorem c4_size_zero_not_ignored_counterexample :
    (syncPositions [(posYes10p, some mktT)] [feedZero] 100).db.map
      (fun e => e.2.1.status) = ["open"] ∧
    (syncPositions [(posYes10p, some mktT)] [feedZero] 100).snaps.length = 1 := by
  decide

/-- C4 amended: a feed record with size 0 for an open position's token is NOT
ignored: the position is matched and updated in place (its shares and cost
basis untouched, since the reported size is not positive, and its status
still open), with one snapshot appended — it is not classified as a
closure. -/
theorem c4_size_zero_amended (p : Position) (m : Market) (t : String)
    (rec : FeedRecord) (now : Int)
    (h1 : selectTokenSync p.direction m = some t) (h2 : ¬ t = "")
    (h3 : rec.token_id = some t) (h4 : rec.size = some 0)
    (h5 : p.status = "open") :
    (syncPositions [(p, some m)] [rec] now).db.map (fun e => e.2.1.status) =
      ["open"] ∧
    (syncPositions [(p, some m)] [rec] now).db.map (fun e => e.2.1.shares) =
      [p.shares] ∧
    (syncPositions [(p, some m)] [rec] now).db.map (fun e => e.2.1.cost_basis) =
      [p.cost_basis] ∧
    (syncPositions [(p, some m)] [rec] now).snaps.length = 1 := by
  refine ⟨?_, ?_, ?_, ?_⟩ <;>
    simp [syncPositions, buildDbPositions, buildDbStep, matchedStep, lookupKey,
      dictReplace, h1, h2, h3, h4, h5, syncMatched, syncShares, closePass,
      foundContains]

/-- C4 witness: the amended theorem at the counterexample's concrete input. -/
theorem c4_size_zero_amended_witness :
    (syncPositions [(posYes10p, some mktT)] [feedZero] 100).db.map
      (fun e => e.2.1.status) = ["open"] ∧
    (syncPositions [(posYes10p, some mktT)] [feedZero] 100).db.map
      (fun e => e.2.1.shares) = [posYes10p.shares] ∧
    (syncPositions [(posYes10p, some mktT)] [feedZero] 100).snaps.length = 1 := by
  obtain ⟨h1, h2, h3, h4⟩ :=
    c4_size_zero_amended posYes10p mktT "t" feedZero 100 (by decide) (by decide)
      rfl rfl rfl
  exact ⟨h1, h2, h4⟩

/-- C10: the matching key of an open ledger position is the market's
yes-token exactly when `direction` is the lowercase string `"yes"`; any other
direction value selects the no-token, in both the reconciliation match (the
`db_positions` key) and the per-position price update. -/
theorem c10_token_selection (p : Position) (m : Market) (hd : p.direction ≠ "yes") :
    selectTokenSync p.direction m = m.clob_token_id_no ∧
    selectTokenPriceUpdate p.direction m = m.clob_token_id_no ∧
    (∀ q : Position, ∀ mm : Market, q.direction = "yes" →
      selectTokenSync q.direction mm = mm.clob_token_id_yes ∧
      selectTokenPriceUpdate q.direction mm = mm.clob_token_id_yes) ∧
    buildDbPositions [(p, some m)] = ([(m.clob_token_id_no, p, m)], []) := by
  refine ⟨?_, ?_, ?_, ?_⟩
  · simp [selectTokenSync, hd]
  · simp [selectTokenPriceUpdate, hd]
  · intro q mm hq
    simp [selectTokenSync, selectTokenPriceUpdate, hq]
  · simp [buildDbPositions, buildDbStep, lookupKey, selectTokenSync, hd]

/-- C10 witness: a direction of `"Yes"` (capitalised) selects the no-token in
both code paths, and `"yes"` selects the yes-token. -/
theorem c10_token_selection_witness :
    selectTokenSync "Yes" mktT = some "u" ∧
    selectTokenPriceUpdate "Yes" mktT = some "u" ∧
    selectTokenSync "yes" mktT = some "t" := by
  have h := c10_token_selection { posYes10 with direction := "Yes" } mktT (by decide)
  refine ⟨h.1, h.2.1, (h.2.2.1 posYes10 mktT rfl).1⟩

theorem lookupKey_mem {α β : Type} [DecidableEq α] {k : α} {v : β} :
    ∀ {l : List (α × β)}, lookupKey k l = some v → (k, v) ∈ l := by
  intro l
  induction l with
  | nil => intro h; simp [lookupKey] at h
  | cons kv rest ih =>
    intro h
    simp only [lookupKey] at h
    by_cases hk : kv.1 = k
    · rw [if_pos hk] at h
      injection h with h2
      subst h2
      subst hk
      exact List.mem_cons_self _ _
    · rw [if_neg hk] at h
      exact List.mem_cons_of_mem _ (ih h)

theorem mem_dictReplace {α β : Type} [DecidableEq α] {d : List (α × β)} {k : α}
    {v : β} {e : α × β} (h : e ∈ dictReplace d k v) : e = (k, v) ∨ e ∈ d := by
  rcases List.mem_map.1 h with ⟨x, hx, hex⟩
  by_cases hk : x.1 = k
  · rw [if_pos hk] at hex
    exact Or.inl hex.symm
  · rw [if_neg hk] at hex
    exact Or.inr (hex ▸ hx)

theorem syncShares_status (p : Position) (sz : Option ℚ) :
    (syncShares p sz).status = p.status := by
  cases sz with
  | none => rfl
  | some s =>
    simp only [syncShares]
    split_ifs <;> rfl

theorem syncMatched_status (now : Int) (p : Position) (rec : FeedRecord) :
    (syncMatched now p rec).1.status = p.status := by
  simpa [syncMatched] using syncShares_status p rec.size

/-- Positions added to the dict by a `matchedStep` come from a looked-up
entry via `syncMatched`; all other entries are unchanged. -/
theorem matchedStep_db_mem (now : Int) (st : SyncState) (rec : FeedRecord)
    {e : Option String × Position × Market}
    (he : e ∈ (matchedStep now st rec).db) :
    e ∈ st.db ∨
    ∃ t pm, rec.token_id = some t ∧ lookupKey (some t) st.db = some pm ∧
      e = (some t, (syncMatched now pm.1 rec).1, pm.2) := by
  unfold matchedStep at he
  cases hrec : rec.token_id with
  | none => rw [hrec] at he; exact Or.inl he
  | some t =>
    rw [hrec] at he
    simp only at he
    by_cases ht : t = ""
    · rw [if_pos ht] at he; exact Or.inl he
    · rw [if_neg ht] at he
      cases hlk : lookupKey (some t) st.db with
      | none => rw [hlk] at he; exact Or.inl he
      | some pm =>
        rw [hlk] at he
        simp only at he
        rcases mem_dictReplace he with heq | he'
        · exact Or.inr ⟨t, pm, rfl, hlk, heq⟩
        · exact Or.inl he'

/-- Statuses of dict entries are preserved through the matched-update loop. -/
theorem matchedFold_status (now : Int) (api : List FeedRecord) :
    ∀ (st : SyncState), (∀ e ∈ st.db, e.2.1.status = "open") →
      ∀ e ∈ (api.foldl (matchedStep now) st).db, e.2.1.status = "open" := by
  induction api with
  | nil => intro st h; simpa using h
  | cons rec rest ih =>
    intro st h
    rw [List.foldl_cons]
    apply ih
    intro e he
    rcases matchedStep_db_mem now st rec he with he' | ⟨t, pm, _, hlk, heq⟩
    · exact h e he'
    · have hpm := h _ (lookupKey_mem hlk)
      rw [heq]
      simpa [syncMatched_status] using hpm

/-- Statuses of dict entries built by `buildDbPositions` come from the input
rows. -/
theorem buildDbFold_status :
    ∀ (rows : List (Position × Option Market))
      (acc : List (Option String × Position × Market) × List Position),
      (∀ e ∈ acc.1, e.2.1.status = "open") →
      (∀ pm ∈ rows, pm.1.status = "open") →
      ∀ e ∈ (rows.foldl buildDbStep acc).1, e.2.1.status = "open" := by
  intro rows
  induction rows with
  | nil => intro acc hacc _ e he; exact hacc e he
  | cons pm rest ih =>
    intro acc hacc hrows e he
    rw [List.foldl_cons] at he
    refine ih _ ?_ (fun q hq => hrows q (List.mem_cons_of_mem _ hq)) e he
    intro x hx
    unfold buildDbStep at hx
    cases hm : pm.2 with
    | none => rw [hm] at hx; exact hacc x hx
    | some market =>
      rw [hm] at hx
      simp only at hx
      cases hlk : lookupKey (selectTokenSync pm.1.direction market) acc.1 with
      | some old =>
        rw [hlk] at hx
        rcases mem_dictReplace hx with heq | hx'
        · rw [heq]
          exact hrows pm (List.mem_cons_self _ _)
        · exact hacc x hx'
      | none =>
        rw [hlk] at hx
        rcases List.mem_append.1 hx with hx' | hx'
        · exact hacc x hx'
        · rcases List.mem_singleton.1 hx' with rfl
          exact hrows pm (List.mem_cons_self _ _)

/-- Both closing branches establish the closed-position invariant. -/
theorem closeLedgerOnly_invariant (p : Position) (m : Market) (now : Int) :
    (closeLedgerOnly p m now).status = "closed" ∧
    (closeLedgerOnly p m now).current_value = some 0 ∧
    (closeLedgerOnly p m now).unrealized_pnl = some 0 ∧
    (closeLedgerOnly p m now).realized_pnl.isSome = true ∧
    (closeLedgerOnly p m now).exit_price.isSome = true ∧
    (closeLedgerOnly p m now).exit_date.isSome = true := by
  unfold closeLedgerOnly
  by_cases h : (resolveInfo m now).1 = true <;>
    simp [h, closeResolved, closeManual]

/-- C6: starting from open rows, every position the pass has transitioned to
status `closed` ends the pass with zero current value, zero unrealized P&L,
and non-null realized P&L, exit price and exit date — whichever closing
branch produced it. -/
theorem c6_closed_invariant (rows : List (Position × Option Market))
    (api : List FeedRecord) (now : Int)
    (e : Option String × Position × Market)
    (hopen : ∀ pm ∈ rows, pm.1.status = "open")
    (he : e ∈ (syncPositions rows api now).db)
    (hclosed : e.2.1.status = "closed") :
    e.2.1.current_value = some 0 ∧ e.2.1.unrealized_pnl = some 0 ∧
    e.2.1.realized_pnl.isSome = true ∧ e.2.1.exit_price.isSome = true ∧
    e.2.1.exit_date.isSome = true := by
  unfold syncPositions at he
  simp only at he
  unfold closePass at he
  rcases List.mem_map.1 he with ⟨x, hx, hex⟩
  have hxopen : x.2.1.status = "open" := by
    refine matchedFold_status now api _ ?_ x hx
    intro y hy
    exact buildDbFold_status rows ([], []) (by simp) hopen y hy
  by_cases hf : foundContains ((api.foldl (matchedStep now)
      ⟨(buildDbPositions rows).1, [], []⟩).found) x.1 = true
  · rw [if_pos hf] at hex
    rw [← hex] at hclosed
    rw [hxopen] at hclosed
    exact absurd hclosed (by decide)
  · rw [if_neg hf] at hex
    rw [← hex]
    have h := closeLedgerOnly_invariant x.2.1 x.2.2 now
    exact ⟨h.2.1, h.2.2.1, h.2.2.2.1, h.2.2.2.2.1, h.2.2.2.2.2⟩

/-- C6 witness: a single open position whose market has passed its end date
and an empty feed; the pass closes it and the invariant holds for the closed
entry. -/
theorem c6_closed_invariant_witness :
    ((syncPositions [(posYes10p, some mktEnded5)] [] 10).db.head!).2.1.current_value
      = some 0 ∧
    ((syncPositions [(posYes10p, some mktEnded5)] [] 10).db.head!).2.1.unrealized_pnl
      = some 0 ∧
    ((syncPositions [(posYes10p, some mktEnded5)] [] 10).db.head!).2.1.realized_pnl.isSome
      = true ∧
    ((syncPositions [(posYes10p, some mktEnded5)] [] 10).db.head!).2.1.exit_price.isSome
      = true ∧
    ((syncPositions [(posYes10p, some mktEnded5)] [] 10).db.head!).2.1.exit_date.isSome
      = true := by
  refine c6_closed_invariant [(posYes10p, some mktEnded5)] [] 10 _ ?_ ?_ ?_
  · intro pm hpm
    rcases List.mem_singleton.1 hpm with rfl
    decide
  · exact List.head!_mem_self (by decide)
  · decide

/-- C5: under the transactional session model, one reconciliation pass is
all-or-nothing.  Starting from a clean session, if the pass raises (fetch or
persistence failure) the committed database is exactly the pre-pass state —
no partial writes — the error is surfaced to the caller, and the scheduled
task absorbs it, leaving a clean session for the next tick.  If it succeeds,
the committed database is exactly the fully-updated state, which contains
the ledger mutations, the one new portfolio snapshot and the appended
position snapshots together. -/
theorem c5_atomic_transaction (s : Session) (fetched : Except String WalletData)
    (persistOk : Bool) (now : Int) (h : s.working = s.committed) :
    ((∃ e, (take_portfolio_snapshot s fetched persistOk now).1 = Except.error e) →
      poll_portfolio s fetched persistOk now = ⟨s.committed, s.committed⟩) ∧
    (∀ w, fetched = Except.ok w → persistOk = true →
      (take_portfolio_snapshot s fetched persistOk now).1 =
        Except.ok (runSnapshotPass s.committed w now).2 ∧
      (take_portfolio_snapshot s fetched persistOk now).2.committed =
        (runSnapshotPass s.committed w now).1 ∧
      (runSnapshotPass s.committed w now).1.portfolio_snapshots =
        s.committed.portfolio_snapshots ++ [(runSnapshotPass s.committed w now).2] ∧
      (runSnapshotPass s.committed w now).1.position_snapshots =
        s.committed.position_snapshots ++
          (syncPositions (s.committed.rows.filter (fun pm => pm.1.status = "open"))
            w.positions now).snaps) ∧
    (persistOk = false →
      (take_portfolio_snapshot s fetched persistOk now).2.committed = s.committed ∧
      (take_portfolio_snapshot s fetched persistOk now).2.working = s.committed) := by
  refine ⟨?_, ?_, ?_⟩
  · rintro ⟨e, he⟩
    cases fetched with
    | error e0 =>
      simp [poll_portfolio, take_portfolio_snapshot, Session.rollbackAll]
    | ok w =>
      cases persistOk with
      | false =>
        simp [poll_portfolio, take_portfolio_snapshot, Session.rollbackAll, h]
      | true => simp [take_portfolio_snapshot] at he
  · rintro w rfl rfl
    refine ⟨?_, ?_, ?_, ?_⟩
    · simp [take_portfolio_snapshot, h]
    · simp [take_portfolio_snapshot, Session.commitAll, h]
    · simp [runSnapshotPass]
    · simp [runSnapshotPass]
  · rintro rfl
    cases fetched with
    | error e0 => simp [take_portfolio_snapshot, Session.rollbackAll]
    | ok w => simp [take_portfolio_snapshot, Session.rollbackAll, h]

/-- C5 witness: a failing fetch on a clean empty session leaves the committed
state untouched and the task returns normally; a successful pass commits the
fully-updated state with its appended snapshot rows. -/
theorem c5_atomic_transaction_witness :
    poll_portfolio ⟨db0, db0⟩ (Except.error "boom") true 5 = ⟨db0, db0⟩ ∧
    (take_portfolio_snapshot ⟨db0, db0⟩ (Except.ok w0) true 5).2.committed =
      (runSnapshotPass db0 w0 5).1 ∧
    (runSnapshotPass db0 w0 5).1.portfolio_snapshots =
      db0.portfolio_snapshots ++ [(runSnapshotPass db0 w0 5).2] := by
  refine ⟨?_, ?_, ?_⟩
  · exact (c5_atomic_transaction ⟨db0, db0⟩ (Except.error "boom") true 5 rfl).1
      ⟨"boom", rfl⟩
  · exact ((c5_atomic_transaction ⟨db0, db0⟩ (Except.ok w0) true 5 rfl).2.1 w0
      rfl rfl).2.1
  · exact ((c5_atomic_transaction ⟨db0, db0⟩ (Except.ok w0) true 5 rfl).2.1 w0
      rfl rfl).2.2.1

theorem lookupKey_isSome_iff {α β : Type} [DecidableEq α] {k : α} :
    ∀ {l : List (α × β)}, (lookupKey k l).isSome = true ↔ k ∈ l.map Prod.fst := by
  intro l
  induction l with
  | nil => simp [lookupKey]
  | cons kv rest ih =>
    simp only [lookupKey, List.map_cons, List.mem_cons]
    by_cases hk : kv.1 = k
    · simp [hk]
    · simp only [if_neg hk, ih]
      constructor
      · exact Or.inr
      · rintro (h | h)
        · exact absurd h.symm hk
        · exact h

theorem lookupKey_eq_none_iff {α β : Type} [DecidableEq α] {k : α}
    {l : List (α × β)} : lookupKey k l = none ↔ k ∉ l.map Prod.fst := by
  rw [← lookupKey_isSome_iff]
  cases lookupKey k l <;> simp

theorem lookupKey_eq_of_nodup {α β : Type} [DecidableEq α]
    {l : List (α × β)} {e : α × β} (hnd : (l.map Prod.fst).Nodup)
    (he : e ∈ l) : lookupKey e.1 l = some e.2 := by
  induction l with
  | nil => simp at he
  | cons kv rest ih =>
    rcases List.mem_cons.1 he with rfl | he'
    · simp [lookupKey]
    · have hk : kv.1 ≠ e.1 := by
        intro hq
        have : e.1 ∈ rest.map Prod.fst := List.mem_map_of_mem Prod.fst he'
        rw [List.map_cons, List.nodup_cons] at hnd
        exact hnd.1 (hq ▸ this)
      simp only [lookupKey, if_neg hk]
      exact ih (by
        rw [List.map_cons, List.nodup_cons] at hnd
        exact hnd.2) he'

theorem dictReplace_keys {α β : Type} [DecidableEq α]
    (d : List (α × β)) (k : α) (v : β) :
    (dictReplace d k v).map Prod.fst = d.map Prod.fst := by
  unfold dictReplace
  rw [List.map_map]
  refine List.map_congr_left ?_
  intro kv _
  by_cases hk : kv.1 = k
  · simp [hk]
  · simp [hk]

theorem syncShares_direction (p : Position) (sz : Option ℚ) :
    (syncShares p sz).direction = p.direction := by
  cases sz with
  | none => rfl
  | some s =>
    simp only [syncShares]
    split_ifs <;> rfl

theorem syncMatched_direction (now : Int) (p : Position) (rec : FeedRecord) :
    (syncMatched now p rec).1.direction = p.direction := by
  simpa [syncMatched] using syncShares_direction p rec.size

/-- Re-syncing shares against the same reported size inside the refreshed
position is a no-op: either the first sync already adopted the reported size,
or the condition fails again for the same reason. -/
theorem syncShares_update_idem (p : Position) (sz cp v u : Option ℚ) :
    syncShares { syncShares p sz with
      current_price := cp, current_value := v, unrealized_pnl := u } sz =
    { syncShares p sz with
      current_price := cp, current_value := v, unrealized_pnl := u } := by
  cases sz with
  | none => rfl
  | some s =>
    by_cases h : s ≠ p.shares ∧ 0 < s
    · have h1 : (syncShares p (some s)).shares = s := by
        simp only [syncShares, if_pos h]
      generalize hq : syncShares p (some s) = q at h1 ⊢
      simp only [syncShares]
      split_ifs
      all_goals first
        | rfl
        | (exfalso
           rename_i hcond hin
           exact hcond.1 h1.symm)
    · have h1 : syncShares p (some s) = p := by
        simp only [syncShares, if_neg h]
      rw [h1]
      simp only [syncShares]
      split_ifs
      all_goals rfl

/-- The matched update writes only `current_price`, `current_value`,
`unrealized_pnl`, `shares` and `cost_basis`; re-running it with the same
record reproduces the same position. -/
theorem syncMatched_idem (now1 now2 : Int) (p : Position) (rec : FeedRecord) :
    (syncMatched now2 (syncMatched now1 p rec).1 rec).1 = (syncMatched now1 p rec).1 := by
  show (syncMatched now2
    { syncShares p rec.size with
      current_price := some (rec.current_price.getD 0),
      current_value := some (rec.value.getD 0),
      unrealized_pnl := some (rec.value.getD 0 - (syncShares p rec.size).cost_basis) }
    rec).1 = _
  unfold syncMatched
  simp only [syncShares_update_idem]

theorem feedTokenKey_eq_some {rec : FeedRecord} {t : String}
    (h : feedTokenKey rec = some t) : rec.token_id = some t ∧ t ≠ "" := by
  unfold feedTokenKey at h
  cases htok : rec.token_id with
  | none => rw [htok] at h; exact Option.noConfusion h
  | some u =>
    rw [htok] at h
    change (if u = "" then none else some u) = some t at h
    by_cases hu : u = ""
    · rw [if_pos hu] at h; exact Option.noConfusion h
    · rw [if_neg hu] at h
      injection h with h2
      subst h2
      exact ⟨rfl, hu⟩

theorem matchedStep_of_no_token {rec : FeedRecord} (now : Int) (st : SyncState)
    (h : feedTokenKey rec = none) : matchedStep now st rec = st := by
  unfold matchedStep
  cases htok : rec.token_id with
  | none => rfl
  | some u =>
    change (if u = "" then st else _) = st
    have hu : u = "" := by
      unfold feedTokenKey at h
      rw [htok] at h
      change (if u = "" then none else some u) = none at h
      by_cases hq : u = ""
      · exact hq
      · rw [if_neg hq] at h; exact Option.noConfusion h
    rw [if_pos hu]

theorem matchedStep_of_unmatched {rec : FeedRecord} {t : String} (now : Int)
    (st : SyncState) (h : feedTokenKey rec = some t)
    (hlk : lookupKey (some t) st.db = none) : matchedStep now st rec = st := by
  obtain ⟨htok, ht⟩ := feedTokenKey_eq_some h
  unfold matchedStep
  rw [htok]
  change (if t = "" then st else _) = st
  rw [if_neg ht, hlk]

theorem matchedStep_matched {rec : FeedRecord} {t : String}
    {pm : Position × Market} (now : Int) (st : SyncState)
    (h : feedTokenKey rec = some t) (hlk : lookupKey (some t) st.db = some pm) :
    matchedStep now st rec =
      ⟨dictReplace st.db (some t) ((syncMatched now pm.1 rec).1, pm.2),
       if t ∈ st.found then st.found else st.found ++ [t],
       st.snaps ++ [(syncMatched now pm.1 rec).2]⟩ := by
  obtain ⟨htok, ht⟩ := feedTokenKey_eq_some h
  unfold matchedStep
  rw [htok]
  change (if t = "" then st else _) = _
  rw [if_neg ht, hlk]

theorem findRec_some (api : List FeedRecord) (t : String) :
    findRec api (some t) =
      api.find? (fun rec => feedTokenKey rec = some t) := rfl

theorem findRec_cons_of_token_none {rec : FeedRecord}
    (h : feedTokenKey rec = none) (rest : List FeedRecord) (k : Option String) :
    findRec (rec :: rest) k = findRec rest k := by
  cases k with
  | none => rfl
  | some t =>
    rw [findRec_some, findRec_some]
    exact List.find?_cons_of_neg _ (by simp [h])

theorem findRec_cons_self {rec : FeedRecord} {t : String}
    (h : feedTokenKey rec = some t) (rest : List FeedRecord) :
    findRec (rec :: rest) (some t) = some rec := by
  rw [findRec_some]
  exact List.find?_cons_of_pos _ (by simp [h])

theorem findRec_cons_ne {rec : FeedRecord} {t : String} {k : Option String}
    (h : feedTokenKey rec = some t) (hk : k ≠ some t) (rest : List FeedRecord) :
    findRec (rec :: rest) k = findRec rest k := by
  cases k with
  | none => rfl
  | some u =>
    rw [findRec_some, findRec_some]
    refine List.find?_cons_of_neg _ ?_
    simp only [h, decide_eq_true_eq]
    intro hq
    injection hq with hq2
    exact hk (by rw [hq2])

theorem findRec_eq_none_of_not_mem {api : List FeedRecord} {t : String}
    (h : t ∉ api.filterMap feedTokenKey) : findRec api (some t) = none := by
  rw [findRec_some]
  rw [List.find?_eq_none]
  intro rec hrec
  simp only [decide_eq_true_eq]
  intro hq
  exact h (List.mem_filterMap.2 ⟨rec, hrec, hq⟩)

theorem matchedStep_keys (now : Int) (st : SyncState) (rec : FeedRecord) :
    (matchedStep now st rec).db.map Prod.fst = st.db.map Prod.fst := by
  cases h : feedTokenKey rec with
  | none => rw [matchedStep_of_no_token now st h]
  | some t =>
    cases hlk : lookupKey (some t) st.db with
    | none => rw [matchedStep_of_unmatched now st h hlk]
    | some pm =>
      rw [matchedStep_matched now st h hlk]
      exact dictReplace_keys _ _ _

theorem matchedFold_keys (now : Int) :
    ∀ (api : List FeedRecord) (st : SyncState),
      (api.foldl (matchedStep now) st).db.map Prod.fst = st.db.map Prod.fst := by
  intro api
  induction api with
  | nil => intro st; rfl
  | cons rec rest ih =>
    intro st
    rw [List.foldl_cons, ih, matchedStep_keys]

theorem findRec_base (k : Option String) : findRec [] k = none := by
  cases k <;> rfl

theorem applyFeed_of_none {api : List FeedRecord} {now : Int}
    {e : Option String × Position × Market} (h : findRec api e.1 = none) :
    applyFeed api now e = e := by
  unfold applyFeed
  rw [h]

theorem applyFeed_of_some {api : List FeedRecord} {now : Int}
    {e : Option String × Position × Market} {rec : FeedRecord}
    (h : findRec api e.1 = some rec) :
    applyFeed api now e = (e.1, (syncMatched now e.2.1 rec).1, e.2.2) := by
  unfold applyFeed
  rw [h]

theorem applyFeed_fst (api : List FeedRecord) (now : Int)
    (e : Option String × Position × Market) : (applyFeed api now e).1 = e.1 := by
  cases h : findRec api e.1 with
  | none => rw [applyFeed_of_none h]
  | some rec => rw [applyFeed_of_some h]

theorem applyFeed_market (api : List FeedRecord) (now : Int)
    (e : Option String × Position × Market) : (applyFeed api now e).2.2 = e.2.2 := by
  cases h : findRec api e.1 with
  | none => rw [applyFeed_of_none h]
  | some rec => rw [applyFeed_of_some h]

theorem applyFeed_direction (api : List FeedRecord) (now : Int)
    (e : Option String × Position × Market) :
    (applyFeed api now e).2.1.direction = e.2.1.direction := by
  cases h : findRec api e.1 with
  | none => rw [applyFeed_of_none h]
  | some rec =>
    rw [applyFeed_of_some h]
    exact syncMatched_direction now e.2.1 rec

theorem applyFeed_status (api : List FeedRecord) (now : Int)
    (e : Option String × Position × Market) :
    (applyFeed api now e).2.1.status = e.2.1.status := by
  cases h : findRec api e.1 with
  | none => rw [applyFeed_of_none h]
  | some rec =>
    rw [applyFeed_of_some h]
    exact syncMatched_status now e.2.1 rec

/-- Applying the matched update to an already-updated entry with the same
feed is the identity. -/
theorem applyFeed_idem (api : List FeedRecord) (now1 now2 : Int)
    (e : Option String × Position × Market) :
    applyFeed api now2 (applyFeed api now1 e) = applyFeed api now1 e := by
  cases h : findRec api e.1 with
  | none => rw [applyFeed_of_none h, applyFeed_of_none h]
  | some rec =>
    rw [applyFeed_of_some h]
    have h2 : findRec api ((e.1, (syncMatched now1 e.2.1 rec).1, e.2.2)).1 = some rec := h
    rw [applyFeed_of_some h2]
    rw [syncMatched_idem]

theorem closePass_cons (now : Int) (found : List String)
    (e : Option String × Position × Market)
    (rest : List (Option String × Position × Market)) :
    closePass now found (e :: rest) =
      (if foundContains found e.1 = true then e
       else (e.1, closeLedgerOnly e.2.1 e.2.2 now, e.2.2)) :: closePass now found rest := by
  unfold closePass
  rw [List.map_cons]

theorem closePass_of_all_found (now : Int) (found : List String) :
    ∀ (db : List (Option String × Position × Market)),
      (∀ e ∈ db, foundContains found e.1 = true) → closePass now found db = db := by
  intro db
  induction db with
  | nil => intro _; rfl
  | cons e rest ih =>
    intro h
    rw [closePass_cons, if_pos (h e (List.mem_cons_self _ _))]
    rw [ih (fun x hx => h x (List.mem_cons_of_mem _ hx))]

theorem closePass_filter_open (now : Int) (found : List String) :
    ∀ (db : List (Option String × Position × Market)),
      (∀ e ∈ db, e.2.1.status = "open") →
      (closePass now found db).filter (fun e => e.2.1.status = "open") =
        db.filter (fun e => foundContains found e.1) := by
  intro db
  induction db with
  | nil => intro _; rfl
  | cons e rest ih =>
    intro h
    have h1 : e.2.1.status = "open" := h e (List.mem_cons_self _ _)
    have hrest := ih (fun x hx => h x (List.mem_cons_of_mem _ hx))
    rw [closePass_cons]
    by_cases hf : foundContains found e.1 = true
    · rw [if_pos hf]
      rw [List.filter_cons, List.filter_cons]
      simp only [h1, hf, decide_True, if_true, hrest]
    · rw [if_neg hf]
      rw [List.filter_cons, List.filter_cons]
      have hcl : (closeLedgerOnly e.2.1 e.2.2 now).status = "closed" :=
        (closeLedgerOnly_invariant e.2.1 e.2.2 now).1
      simp only [hcl, hrest]
      rw [if_neg (by simp), if_neg (by simp [hf])]

/-- Every dict entry built from the rows carries the key selected by its own
position's direction on its own market. -/
theorem dbOf_key_consistent {rows : List (Position × Option Market)}
    {e : Option String × Position × Market} (he : e ∈ dbOf rows) :
    e.1 = selectTokenSync e.2.1.direction e.2.2 := by
  rcases List.mem_filterMap.1 he with ⟨pm, _, hpm⟩
  cases hm : pm.2 with
  | none => rw [hm] at hpm; exact Option.noConfusion hpm
  | some m =>
    rw [hm] at hpm
    have h2 : (selectTokenSync pm.1.direction m, pm.1, m) = e := Option.some.inj hpm
    rw [← h2]

theorem dbOf_keys (rows : List (Position × Option Market)) :
    (dbOf rows).map Prod.fst = rows.filterMap keyFn := by
  unfold dbOf
  rw [List.map_filterMap]
  refine List.filterMap_congr ?_
  intro pm _
  unfold keyFn
  cases pm.2 <;> rfl

/-- Under one feed record per token, the matched-update loop acts on the dict
as the pointwise update by the (unique) matching record. -/
theorem matchedFold_db (now : Int) :
    ∀ (api : List FeedRecord) (st : SyncState),
      (api.filterMap feedTokenKey).Nodup →
      (st.db.map Prod.fst).Nodup →
      (api.foldl (matchedStep now) st).db = st.db.map (applyFeed api now) := by
  intro api
  induction api with
  | nil =>
    intro st _ _
    rw [List.foldl_nil]
    have h : st.db.map (applyFeed [] now) = st.db.map id :=
      List.map_congr_left (fun e _ => applyFeed_of_none (findRec_base e.1))
    rw [h, List.map_id]
  | cons rec rest ih =>
    intro st htok hnd
    rw [List.foldl_cons]
    cases hk : feedTokenKey rec with
    | none =>
      have htok' : (rest.filterMap feedTokenKey).Nodup := by
        rwa [List.filterMap_cons_none hk] at htok
      rw [matchedStep_of_no_token now st hk, ih st htok' hnd]
      refine List.map_congr_left ?_
      intro e _
      unfold applyFeed
      rw [findRec_cons_of_token_none hk]
    | some t =>
      rw [List.filterMap_cons_some hk] at htok
      have ht_not : t ∉ rest.filterMap feedTokenKey := (List.nodup_cons.1 htok).1
      have htok' : (rest.filterMap feedTokenKey).Nodup := (List.nodup_cons.1 htok).2
      cases hlk : lookupKey (some t) st.db with
      | none =>
        rw [matchedStep_of_unmatched now st hk hlk, ih st htok' hnd]
        refine List.map_congr_left ?_
        intro e he
        have hne : e.1 ≠ some t := by
          intro hq
          have hm : (lookupKey (some t) st.db).isSome = true :=
            lookupKey_isSome_iff.2 (hq ▸ List.mem_map_of_mem Prod.fst he)
          rw [hlk] at hm
          exact Bool.noConfusion hm
        unfold applyFeed
        rw [findRec_cons_ne hk hne]
      | some pm =>
        rw [matchedStep_matched now st hk hlk]
        have hkeys' : ((dictReplace st.db (some t)
            ((syncMatched now pm.1 rec).1, pm.2)).map Prod.fst).Nodup := by
          rw [dictReplace_keys]; exact hnd
        rw [ih _ htok' hkeys']
        show (dictReplace st.db (some t)
          ((syncMatched now pm.1 rec).1, pm.2)).map (applyFeed rest now) =
          st.db.map (applyFeed (rec :: rest) now)
        unfold dictReplace
        rw [List.map_map]
        refine List.map_congr_left ?_
        intro e he
        show applyFeed rest now
          (if e.1 = some t then (some t, (syncMatched now pm.1 rec).1, pm.2) else e) =
          applyFeed (rec :: rest) now e
        by_cases heq : e.1 = some t
        · rw [if_pos heq]
          have hepm : e.2 = pm := by
            have h1 := lookupKey_eq_of_nodup hnd he
            rw [heq] at h1
            rw [h1] at hlk
            exact Option.some.inj hlk
          have hfr : findRec rest
              ((some t, (syncMatched now pm.1 rec).1, pm.2) :
                Option String × Position × Market).1 = none :=
            findRec_eq_none_of_not_mem ht_not
          rw [applyFeed_of_none hfr]
          have hfr2 : findRec (rec :: rest) e.1 = some rec := by
            rw [heq]; exact findRec_cons_self hk rest
          rw [applyFeed_of_some hfr2, heq, hepm]
        · rw [if_neg heq]
          unfold applyFeed
          rw [findRec_cons_ne hk heq]

/-- Each processed feed record appends exactly one snapshot when its token
matches a dict key, and none otherwise. -/
theorem matchedFold_snaps_len (now : Int) :
    ∀ (api : List FeedRecord) (st : SyncState),
      (api.foldl (matchedStep now) st).snaps.length =
        st.snaps.length + api.countP (recMatches (st.db.map Prod.fst)) := by
  intro api
  induction api with
  | nil => intro st; simp
  | cons rec rest ih =>
    intro st
    rw [List.foldl_cons, List.countP_cons]
    cases hk : feedTokenKey rec with
    | none =>
      have hm : recMatches (st.db.map Prod.fst) rec = false := by
        unfold recMatches
        rw [hk]
      rw [matchedStep_of_no_token now st hk, ih st, hm]
      simp
    | some t =>
      cases hlk : lookupKey (some t) st.db with
      | none =>
        have hm : recMatches (st.db.map Prod.fst) rec = false := by
          unfold recMatches
          rw [hk]
          simp only [decide_eq_false_iff_not]
          intro hmem
          have := lookupKey_isSome_iff.2 hmem
          rw [hlk] at this
          exact Bool.noConfusion this
        rw [matchedStep_of_unmatched now st hk hlk, ih st, hm]
        simp
      | some pm =>
        have hm : recMatches (st.db.map Prod.fst) rec = true := by
          unfold recMatches
          rw [hk]
          simp only [decide_eq_true_eq]
          exact lookupKey_isSome_iff.1 (by rw [hlk]; rfl)
        rw [matchedStep_matched now st hk hlk, ih _, hm]
        rw [dictReplace_keys]
        simp only [List.length_append, List.length_cons, List.length_nil, if_pos]
        omega

theorem matchedStep_found_mono {now : Int} {st : SyncState} {rec : FeedRecord}
    {t : String} (h : t ∈ st.found) : t ∈ (matchedStep now st rec).found := by
  cases hk : feedTokenKey rec with
  | none => rw [matchedStep_of_no_token now st hk]; exact h
  | some u =>
    cases hlk : lookupKey (some u) st.db with
    | none => rw [matchedStep_of_unmatched now st hk hlk]; exact h
    | some pm =>
      rw [matchedStep_matched now st hk hlk]
      show t ∈ (if u ∈ st.found then st.found else st.found ++ [u])
      by_cases hu : u ∈ st.found
      · rw [if_pos hu]; exact h
      · rw [if_neg hu]; exact List.mem_append_left _ h

theorem matchedFold_found_mono (now : Int) :
    ∀ (api : List FeedRecord) (st : SyncState) (t : String), t ∈ st.found →
      t ∈ (api.foldl (matchedStep now) st).found := by
  intro api
  induction api with
  | nil => intro st t h; exact h
  | cons rec rest ih =>
    intro st t h
    rw [List.foldl_cons]
    exact ih _ t (matchedStep_found_mono h)

theorem matchedFold_found_of_matched (now : Int) :
    ∀ (api : List FeedRecord) (st : SyncState) (rec : FeedRecord) (t : String),
      rec ∈ api → feedTokenKey rec = some t → some t ∈ st.db.map Prod.fst →
      t ∈ (api.foldl (matchedStep now) st).found := by
  intro api
  induction api with
  | nil => intro st rec t h; exact absurd h (List.not_mem_nil rec)
  | cons rec0 rest ih =>
    intro st rec t hmem hk hkey
    rw [List.foldl_cons]
    rcases List.mem_cons.1 hmem with rfl | hmem'
    · obtain ⟨pm, hlk⟩ : ∃ pm, lookupKey (some t) st.db = some pm := by
        have h1 := lookupKey_isSome_iff.2 hkey
        cases h2 : lookupKey (some t) st.db with
        | none => rw [h2] at h1; exact Bool.noConfusion h1
        | some pm => exact ⟨pm, rfl⟩
      refine matchedFold_found_mono now rest _ t ?_
      rw [matchedStep_matched now st hk hlk]
      show t ∈ (if t ∈ st.found then st.found else st.found ++ [t])
      by_cases hu : t ∈ st.found
      · rw [if_pos hu]; exact hu
      · rw [if_neg hu]; exact List.mem_append_right _ (List.mem_singleton_self t)
    · refine ih _ rec t hmem' hk ?_
      rw [matchedStep_keys]
      exact hkey

theorem matchedStep_found_sub {now : Int} {st : SyncState} {rec : FeedRecord}
    {t : String} (h : t ∈ (matchedStep now st rec).found) :
    t ∈ st.found ∨ feedTokenKey rec = some t := by
  cases hk : feedTokenKey rec with
  | none => rw [matchedStep_of_no_token now st hk] at h; exact Or.inl h
  | some u =>
    cases hlk : lookupKey (some u) st.db with
    | none => rw [matchedStep_of_unmatched now st hk hlk] at h; exact Or.inl h
    | some pm =>
      rw [matchedStep_matched now st hk hlk] at h
      replace h : t ∈ (if u ∈ st.found then st.found else st.found ++ [u]) := h
      by_cases hu : u ∈ st.found
      · rw [if_pos hu] at h; exact Or.inl h
      · rw [if_neg hu] at h
        rcases List.mem_append.1 h with h' | h'
        · exact Or.inl h'
        · have ht : t = u := List.mem_singleton.1 h'
          subst ht
          exact Or.inr rfl

theorem matchedFold_found_sub (now : Int) :
    ∀ (api : List FeedRecord) (st : SyncState) (t : String),
      t ∈ (api.foldl (matchedStep now) st).found →
      t ∈ st.found ∨ ∃ rec ∈ api, feedTokenKey rec = some t := by
  intro api
  induction api with
  | nil => intro st t h; exact Or.inl h
  | cons rec rest ih =>
    intro st t h
    rw [List.foldl_cons] at h
    rcases ih _ t h with h' | ⟨rec', hrec', hk'⟩
    · rcases matchedStep_found_sub h' with h'' | h''
      · exact Or.inl h''
      · exact Or.inr ⟨rec, List.mem_cons_self _ _, h''⟩
    · exact Or.inr ⟨rec', List.mem_cons_of_mem _ hrec', hk'⟩

theorem lookupKey_append_of_none {α β : Type} [DecidableEq α] {k : α}
    {l1 : List (α × β)} (l2 : List (α × β)) (h : lookupKey k l1 = none) :
    lookupKey k (l1 ++ l2) = lookupKey k l2 := by
  induction l1 with
  | nil => rfl
  | cons kv rest ih =>
    simp only [lookupKey] at h ⊢
    by_cases hk : kv.1 = k
    · rw [if_pos hk] at h; exact Option.noConfusion h
    · rw [if_neg hk] at h ⊢
      exact ih h

theorem lookupKey_singleton_ne {α β : Type} [DecidableEq α] {k k' : α}
    (v : β) (h : k ≠ k') : lookupKey k' [(k, v)] = none := by
  simp only [lookupKey]
  rw [if_neg h]

/-- With pairwise-distinct keys, none of which is already present in the
accumulator, the dict build appends one entry per row with a market and one
untouched position per row without. -/
theorem buildDb_foldl :
    ∀ (rows : List (Position × Option Market))
      (acc : List (Option String × Position × Market) × List Position),
      (rows.filterMap keyFn).Nodup →
      (∀ k ∈ rows.filterMap keyFn, lookupKey k acc.1 = none) →
      rows.foldl buildDbStep acc = (acc.1 ++ dbOf rows, acc.2 ++ untOf rows) := by
  intro rows
  induction rows with
  | nil =>
    intro acc _ _
    simp [dbOf, untOf]
  | cons pm rest ih =>
    intro acc hnd hdisj
    rw [List.foldl_cons]
    cases hm : pm.2 with
    | none =>
      have hkey : keyFn pm = none := by unfold keyFn; rw [hm]; rfl
      have hstep : buildDbStep acc pm = (acc.1, acc.2 ++ [pm.1]) := by
        unfold buildDbStep
        rw [hm]
      rw [hstep]
      rw [ih (acc.1, acc.2 ++ [pm.1]) (by rwa [List.filterMap_cons_none hkey] at hnd)
        (fun k hk => hdisj k (by rwa [List.filterMap_cons_none hkey]))]
      have hdb : dbOf (pm :: rest) = dbOf rest :=
        List.filterMap_cons_none (by rw [hm]; rfl)
      have hunt : untOf (pm :: rest) = pm.1 :: untOf rest :=
        List.filterMap_cons_some (by rw [hm])
      rw [hdb, hunt]
      simp
    | some m =>
      have hkey : keyFn pm = some (selectTokenSync pm.1.direction m) := by
        unfold keyFn; rw [hm]; rfl
      rw [List.filterMap_cons_some hkey] at hnd
      have hknotin : selectTokenSync pm.1.direction m ∉ rest.filterMap keyFn :=
        (List.nodup_cons.1 hnd).1
      have hnd' : (rest.filterMap keyFn).Nodup := (List.nodup_cons.1 hnd).2
      have hlk : lookupKey (selectTokenSync pm.1.direction m) acc.1 = none :=
        hdisj _ (by rw [List.filterMap_cons_some hkey]; exact List.mem_cons_self _ _)
      have hstep : buildDbStep acc pm =
          (acc.1 ++ [(selectTokenSync pm.1.direction m, pm.1, m)], acc.2) := by
        unfold buildDbStep
        simp only [hm, hlk]
      rw [hstep]
      rw [ih (acc.1 ++ [(selectTokenSync pm.1.direction m, pm.1, m)], acc.2) hnd' ?_]
      · have hdb : dbOf (pm :: rest) =
            (selectTokenSync pm.1.direction m, pm.1, m) :: dbOf rest :=
          List.filterMap_cons_some (by rw [hm]; rfl)
        have hunt : untOf (pm :: rest) = untOf rest :=
          List.filterMap_cons_none (by rw [hm])
        rw [hdb, hunt]
        simp
      · intro k hk
        have hkne : selectTokenSync pm.1.direction m ≠ k := by
          intro hq
          exact hknotin (hq ▸ hk)
        rw [lookupKey_append_of_none _ (hdisj k
          (by rw [List.filterMap_cons_some hkey]; exact List.mem_cons_of_mem _ hk))]
        exact lookupKey_singleton_ne _ hkne

theorem countP_recMatches :
    ∀ (api : List FeedRecord) (K : List (Option String)),
      api.countP (recMatches K) =
        ((api.filterMap feedTokenKey).filter (fun t => some t ∈ K)).length := by
  intro api
  induction api with
  | nil => intro K; rfl
  | cons rec rest ih =>
    intro K
    rw [List.countP_cons]
    cases hk : feedTokenKey rec with
    | none =>
      have hm : recMatches K rec = false := by unfold recMatches; rw [hk]
      rw [List.filterMap_cons_none hk, hm, ih]
      simp
    | some t =>
      have hm : recMatches K rec = decide (some t ∈ K) := by
        unfold recMatches; rw [hk]
      rw [List.filterMap_cons_some hk, hm, ih, List.filter_cons]
      by_cases hmem : some t ∈ K
      · simp [hmem]
      · simp [hmem]

theorem filter_cover_length :
    ∀ (T : List String) (K : List (Option String)), T.Nodup → K.Nodup →
      (∀ k ∈ K, ∃ t ∈ T, k = some t) →
      (T.filter (fun t => some t ∈ K)).length = K.length := by
  intro T
  induction T with
  | nil =>
    intro K _ _ hcov
    cases K with
    | nil => rfl
    | cons k ks =>
      rcases hcov k (List.mem_cons_self _ _) with ⟨t, ht, _⟩
      exact absurd ht (List.not_mem_nil t)
  | cons t rest ih =>
    intro K hT hK hcov
    have htrest : t ∉ rest := (List.nodup_cons.1 hT).1
    have hrest : rest.Nodup := (List.nodup_cons.1 hT).2
    rw [List.filter_cons]
    by_cases hmem : some t ∈ K
    · rw [if_pos (by simpa using hmem)]
      have hfc : rest.filter (fun u => some u ∈ K) =
          rest.filter (fun u => some u ∈ K.erase (some t)) := by
        refine List.filter_congr ?_
        intro u hu
        have hut : u ≠ t := fun hq => htrest (hq ▸ hu)
        simp only [decide_eq_decide]
        constructor
        · intro h1
          exact (List.Nodup.mem_erase_iff hK).2 ⟨by simp [hut], h1⟩
        · intro h1
          exact ((List.Nodup.mem_erase_iff hK).1 h1).2
      rw [hfc, List.length_cons]
      rw [ih (K.erase (some t)) hrest (hK.erase _) ?_]
      · rw [List.length_erase_of_mem hmem]
        have : 0 < K.length := List.length_pos_of_mem hmem
        omega
      · intro k hk
        have hkK : k ∈ K := List.mem_of_mem_erase hk
        have hkne : k ≠ some t := ((List.Nodup.mem_erase_iff hK).1 hk).1
        rcases hcov k hkK with ⟨u, hu, hku⟩
        rcases List.mem_cons.1 hu with rfl | hu2
        · exact absurd hku hkne
        · exact ⟨u, hu2, hku⟩
    · rw [if_neg (by simpa using hmem)]
      refine ih K hrest hK ?_
      intro k hk
      rcases hcov k hk with ⟨u, hu, hku⟩
      rcases List.mem_cons.1 hu with rfl | hu2
      · exact absurd (hku ▸ hk) hmem
      · exact ⟨u, hu2, hku⟩

/-- Rows built from the dict's open matched entries rebuild exactly those
entries (their keys are re-derived from unchanged direction and market). -/
theorem dbOf_of_entries (l : List (Option String × Position × Market))
    (hkc : ∀ e ∈ l, e.1 = selectTokenSync e.2.1.direction e.2.2) :
    dbOf (l.map (fun e => (e.2.1, some e.2.2))) = l := by
  unfold dbOf
  rw [List.filterMap_map]
  have h1 : ∀ e ∈ l,
      ((fun pm : Position × Option Market =>
          pm.2.map (fun m => (selectTokenSync pm.1.direction m, pm.1, m))) ∘
        (fun e : Option String × Position × Market => (e.2.1, some e.2.2))) e
        = some e := by
    intro e he
    show some (selectTokenSync e.2.1.direction e.2.2, e.2.1, e.2.2) = some e
    rw [← hkc e he]
  rw [List.filterMap_congr h1]
  exact List.filterMap_some _

theorem untOf_of_entries (l : List (Option String × Position × Market)) :
    untOf (l.map (fun e => (e.2.1, some e.2.2))) = [] := by
  unfold untOf
  rw [List.filterMap_map]
  exact List.filterMap_eq_nil_iff.2 (fun e _ => rfl)

theorem dbOf_of_untouched (l : List Position) :
    dbOf (l.map (fun p => (p, (none : Option Market)))) = [] := by
  unfold dbOf
  rw [List.filterMap_map]
  exact List.filterMap_eq_nil_iff.2 (fun p _ => rfl)

theorem untOf_of_untouched (l : List Position) :
    untOf (l.map (fun p => (p, (none : Option Market)))) = l := by
  unfold untOf
  rw [List.filterMap_map]
  have h1 : ∀ p ∈ l,
      ((fun pm : Position × Option Market =>
          match pm.2 with | none => some pm.1 | some _ => none) ∘
        (fun p : Position => (p, (none : Option Market)))) p = some p :=
    fun p _ => rfl
  rw [List.filterMap_congr h1]
  exact List.filterMap_some _

theorem keyFn_of_entries (l : List (Option String × Position × Market))
    (hkc : ∀ e ∈ l, e.1 = selectTokenSync e.2.1.direction e.2.2) :
    (l.map (fun e => (e.2.1, some e.2.2))).filterMap keyFn = l.map Prod.fst := by
  rw [List.filterMap_map]
  have h1 : ∀ e ∈ l,
      (keyFn ∘ (fun e : Option String × Position × Market => (e.2.1, some e.2.2))) e
        = some e.1 := by
    intro e he
    show some (selectTokenSync e.2.1.direction e.2.2) = some e.1
    rw [← hkc e he]
  rw [List.filterMap_congr h1]
  have h2 : ∀ e ∈ l, (fun e : Option String × Position × Market => some e.1) e =
      (some ∘ Prod.fst) e := fun e _ => rfl
  rw [List.filterMap_congr h2, List.filterMap_eq_map]

theorem keyFn_of_untouched (l : List Position) :
    (l.map (fun p => (p, (none : Option Market)))).filterMap keyFn = [] := by
  rw [List.filterMap_map]
  exact List.filterMap_eq_nil_iff.2 (fun p _ => rfl)

theorem dbOf_append (l1 l2 : List (Position × Option Market)) :
    dbOf (l1 ++ l2) = dbOf l1 ++ dbOf l2 := List.filterMap_append ..

theorem untOf_append (l1 l2 : List (Position × Option Market)) :
    untOf (l1 ++ l2) = untOf l1 ++ untOf l2 := List.filterMap_append ..

theorem passOutputRows_mk (d : List (Option String × Position × Market))
    (u : List Position) (sn : List PositionSnapshot) :
    passOutputRows ⟨d, u, sn⟩ =
      (u.filter (fun p => p.status = "open")).map (fun p => (p, (none : Option Market))) ++
      (d.filter (fun e => e.2.1.status = "open")).map (fun e => (e.2.1, some e.2.2)) := rfl

/-- C7: with one feed record per token and distinct matching keys, running
the pass a second time on the same feed leaves every position unchanged (the
second pass's dict output is exactly the open entries the first pass left),
touches none of the untouched rows, and appends exactly one new
PositionSnapshot row per open matched position. -/
theorem c7_idempotent_pass (rows : List (Position × Option Market))
    (api : List FeedRecord) (now1 now2 : Int)
    (hopen : ∀ pm ∈ rows, pm.1.status = "open")
    (hkeys : (rows.filterMap keyFn).Nodup)
    (htok : (api.filterMap feedTokenKey).Nodup) :
    (syncPositions (passOutputRows (syncPositions rows api now1)) api now2).db =
      (syncPositions rows api now1).db.filter (fun e => e.2.1.status = "open") ∧
    (syncPositions (passOutputRows (syncPositions rows api now1)) api now2).untouched =
      (syncPositions rows api now1).untouched ∧
    (syncPositions (passOutputRows (syncPositions rows api now1)) api now2).snaps.length =
      ((syncPositions rows api now1).db.filter
        (fun e => e.2.1.status = "open")).length := by
  have hbuild1 : buildDbPositions rows = (dbOf rows, untOf rows) := by
    unfold buildDbPositions
    have h := buildDb_foldl rows ([], []) hkeys (fun k _ => rfl)
    simpa using h
  have hnd1 : ((dbOf rows).map Prod.fst).Nodup := by
    rw [dbOf_keys]; exact hkeys
  have hfold1 : (api.foldl (matchedStep now1) ⟨dbOf rows, [], []⟩).db =
      (dbOf rows).map (applyFeed api now1) :=
    matchedFold_db now1 api ⟨dbOf rows, [], []⟩ htok hnd1
  have hfsub : ∀ t ∈ (api.foldl (matchedStep now1) ⟨dbOf rows, [], []⟩).found,
      ∃ rec ∈ api, feedTokenKey rec = some t := by
    intro t ht
    rcases matchedFold_found_sub now1 api _ t ht with h' | h'
    · exact absurd h' (List.not_mem_nil t)
    · exact h'
  have hr1 : syncPositions rows api now1 =
      ⟨closePass now1 (api.foldl (matchedStep now1) ⟨dbOf rows, [], []⟩).found
          (api.foldl (matchedStep now1) ⟨dbOf rows, [], []⟩).db,
        untOf rows,
        (api.foldl (matchedStep now1) ⟨dbOf rows, [], []⟩).snaps⟩ := by
    unfold syncPositions
    rw [hbuild1]
  generalize hst1 : api.foldl (matchedStep now1) ⟨dbOf rows, [], []⟩ = st1
    at hfold1 hfsub hr1
  have hstat1 : ∀ e ∈ st1.db, e.2.1.status = "open" := by
    rw [hfold1]
    intro e he
    rcases List.mem_map.1 he with ⟨e0, he0, rfl⟩
    rw [applyFeed_status]
    rcases List.mem_filterMap.1 he0 with ⟨pm, hpm, hpmeq⟩
    cases hm : pm.2 with
    | none => rw [hm] at hpmeq; exact Option.noConfusion hpmeq
    | some m =>
      rw [hm] at hpmeq
      have h2 := Option.some.inj hpmeq
      rw [← h2]
      exact hopen pm hpm
  have hkc1 : ∀ e ∈ st1.db, e.1 = selectTokenSync e.2.1.direction e.2.2 := by
    rw [hfold1]
    intro e he
    rcases List.mem_map.1 he with ⟨e0, he0, rfl⟩
    rw [applyFeed_fst, applyFeed_direction, applyFeed_market]
    exact dbOf_key_consistent he0
  have hndst1 : (st1.db.map Prod.fst).Nodup := by
    rw [hfold1, List.map_map]
    have h : ∀ e ∈ dbOf rows, (Prod.fst ∘ applyFeed api now1) e = Prod.fst e :=
      fun e _ => applyFeed_fst api now1 e
    rw [List.map_congr_left h]
    exact hnd1
  have hopenM : (closePass now1 st1.found st1.db).filter
      (fun e => e.2.1.status = "open") =
      st1.db.filter (fun e => foundContains st1.found e.1) :=
    closePass_filter_open now1 st1.found st1.db hstat1
  have hopenM_rec : ∀ e ∈ st1.db.filter (fun e => foundContains st1.found e.1),
      ∃ t, e.1 = some t ∧ ∃ rec ∈ api, feedTokenKey rec = some t := by
    intro e he
    have hf := List.of_mem_filter he
    cases hk : e.1 with
    | none =>
      rw [hk] at hf
      exact absurd hf (by simp [foundContains])
    | some t =>
      rw [hk] at hf
      have htf : t ∈ st1.found := by simpa [foundContains] using hf
      exact ⟨t, rfl, hfsub t htf⟩
  have hkcM : ∀ e ∈ st1.db.filter (fun e => foundContains st1.found e.1),
      e.1 = selectTokenSync e.2.1.direction e.2.2 :=
    fun e he => hkc1 e (List.mem_of_mem_filter he)
  have hndM : ((st1.db.filter
      (fun e => foundContains st1.found e.1)).map Prod.fst).Nodup :=
    ((List.filter_sublist st1.db).map Prod.fst).nodup hndst1
  have huo : (untOf rows).filter (fun p => p.status = "open") = untOf rows := by
    rw [List.filter_eq_self]
    intro p hp
    rcases List.mem_filterMap.1 hp with ⟨pm, hpm, hpmeq⟩
    cases hm : pm.2 with
    | some m => rw [hm] at hpmeq; exact Option.noConfusion hpmeq
    | none =>
      rw [hm] at hpmeq
      have h2 := Option.some.inj hpmeq
      rw [← h2]
      simp [hopen pm hpm]
  have hrows2 : passOutputRows (syncPositions rows api now1) =
      (untOf rows).map (fun p => (p, (none : Option Market))) ++
      (st1.db.filter (fun e => foundContains st1.found e.1)).map
        (fun e => (e.2.1, some e.2.2)) := by
    rw [hr1, passOutputRows_mk, huo, hopenM]
  have hkeys2 : ((untOf rows).map (fun p => (p, (none : Option Market))) ++
      (st1.db.filter (fun e => foundContains st1.found e.1)).map
        (fun e => (e.2.1, some e.2.2))).filterMap keyFn =
      (st1.db.filter (fun e => foundContains st1.found e.1)).map Prod.fst := by
    rw [List.filterMap_append, keyFn_of_untouched, keyFn_of_entries _ hkcM,
      List.nil_append]
  have hbuild2 : buildDbPositions
      ((untOf rows).map (fun p => (p, (none : Option Market))) ++
        (st1.db.filter (fun e => foundContains st1.found e.1)).map
          (fun e => (e.2.1, some e.2.2))) =
      (st1.db.filter (fun e => foundContains st1.found e.1), untOf rows) := by
    unfold buildDbPositions
    have h := buildDb_foldl _ ([], []) (by rw [hkeys2]; exact hndM)
      (fun k _ => rfl)
    rw [h, List.nil_append, List.nil_append, dbOf_append, untOf_append,
      dbOf_of_untouched, dbOf_of_entries _ hkcM, untOf_of_untouched,
      untOf_of_entries, List.nil_append, List.append_nil]
  have hfold2 : (api.foldl (matchedStep now2)
      ⟨st1.db.filter (fun e => foundContains st1.found e.1), [], []⟩).db =
      st1.db.filter (fun e => foundContains st1.found e.1) := by
    rw [matchedFold_db now2 api _ htok hndM]
    have hfix : ∀ e ∈ st1.db.filter (fun e => foundContains st1.found e.1),
        applyFeed api now2 e = id e := by
      intro e he
      have he2 : e ∈ st1.db := List.mem_of_mem_filter he
      rw [hfold1] at he2
      rcases List.mem_map.1 he2 with ⟨e0, _, rfl⟩
      exact applyFeed_idem api now1 now2 e0
    rw [List.map_congr_left hfix, List.map_id]
  have hfound2 : ∀ e ∈ (api.foldl (matchedStep now2)
      ⟨st1.db.filter (fun e => foundContains st1.found e.1), [], []⟩).db,
      foundContains (api.foldl (matchedStep now2)
        ⟨st1.db.filter (fun e => foundContains st1.found e.1), [], []⟩).found
        e.1 = true := by
    intro e he
    rw [hfold2] at he
    rcases hopenM_rec e he with ⟨t, hk, rec, hrec, hfk⟩
    have hkey : some t ∈ (st1.db.filter
        (fun e => foundContains st1.found e.1)).map Prod.fst :=
      hk ▸ List.mem_map_of_mem Prod.fst he
    have hfound := matchedFold_found_of_matched now2 api
      ⟨st1.db.filter (fun e => foundContains st1.found e.1), [], []⟩
      rec t hrec hfk hkey
    rw [hk]
    simpa [foundContains] using hfound
  have hsnap2 : (api.foldl (matchedStep now2)
      ⟨st1.db.filter (fun e => foundContains st1.found e.1), [], []⟩).snaps.length =
      (st1.db.filter (fun e => foundContains st1.found e.1)).length := by
    rw [matchedFold_snaps_len now2 api
      ⟨st1.db.filter (fun e => foundContains st1.found e.1), [], []⟩]
    show [].length + _ = _
    rw [List.length_nil, Nat.zero_add, countP_recMatches,
      filter_cover_length (api.filterMap feedTokenKey) _ htok hndM ?_,
      List.length_map]
    intro k hk
    rcases List.mem_map.1 hk with ⟨e, he, rfl⟩
    rcases hopenM_rec e he with ⟨t, hkt, rec, hrec, hfk⟩
    exact ⟨t, List.mem_filterMap.2 ⟨rec, hrec, hfk⟩, hkt⟩
  have hr2 : syncPositions (passOutputRows (syncPositions rows api now1)) api now2 =
      ⟨closePass now2
          (api.foldl (matchedStep now2)
            ⟨st1.db.filter (fun e => foundContains st1.found e.1), [], []⟩).found
          (api.foldl (matchedStep now2)
            ⟨st1.db.filter (fun e => foundContains st1.found e.1), [], []⟩).db,
        untOf rows,
        (api.foldl (matchedStep now2)
          ⟨st1.db.filter (fun e => foundContains st1.found e.1), [], []⟩).snaps⟩ := by
    rw [hrows2]
    unfold syncPositions
    rw [hbuild2]
  refine ⟨?_, ?_, ?_⟩
  · rw [hr2, hr1]
    show closePass now2 _ _ = _
    rw [closePass_of_all_found now2 _ _ hfound2, hfold2, hopenM]
  · rw [hr2, hr1]
  · rw [hr2, hr1]
    show (api.foldl (matchedStep now2)
      ⟨st1.db.filter (fun e => foundContains st1.found e.1), [], []⟩).snaps.length = _
    rw [hsnap2, hopenM]

/-- C7 witness: one open 100-share position on token `"t"` and a feed
reporting 40 shares for `"t"`; the second pass reproduces the first pass's
single open entry and appends exactly one snapshot. -/
theorem c7_idempotent_pass_witness :
    (syncPositions (passOutputRows (syncPositions [(pos100, some mktT)]
        [feed40] 1)) [feed40] 2).db =
      (syncPositions [(pos100, some mktT)] [feed40] 1).db.filter
        (fun e => e.2.1.status = "open") ∧
    (syncPositions (passOutputRows (syncPositions [(pos100, some mktT)]
        [feed40] 1)) [feed40] 2).untouched =
      (syncPositions [(pos100, some mktT)] [feed40] 1).untouched ∧
    (syncPositions (passOutputRows (syncPositions [(pos100, some mktT)]
        [feed40] 1)) [feed40] 2).snaps.length =
      ((syncPositions [(pos100, some mktT)] [feed40] 1).db.filter
        (fun e => e.2.1.status = "open")).length :=
  c7_idempotent_pass [(pos100, some mktT)] [feed40] 1 2
    (by decide) (by decide) (by decide)

end Dashboard
